import Mathlib

/-!
Shallow embedding of the `chunkpipe` buffer (src/methods.go).

The Go `ChunkPipe[T]` is a doubly linked chain of chunks guarded by a
reader/writer mutex.  The chain is modelled as a Lean list of chunks, head
first: `head` is the first entry, `tail` the last, and the `prev`/`next`
pointers are navigation aids inside the owned chain.  The mutex disappears
because every method is a single atomic state transformer.  A chunk's
backing memory (`data unsafe.Pointer`) is modelled as the list of values
stored there; Go's zero value (`var zero T`) is `default` of an `Inhabited`
instance; Go `int` fields (`size`, `offset`, `totalSize`, `validSize`) are
modelled as `Int`.
-/

namespace ChunkPipeModel

/-- `Chunk[T]`: one contiguous block plus the valid-window descriptor
(`offset`, `size`).  The `prev`/`next` pointers live in the chain list of
the pipe. -/
structure Chunk (T : Type) where
  data : List T
  size : Int
  offset : Int
deriving DecidableEq

/-- `TreeNode[T]` of the weighted index tree; a nil pointer is `.nil`.
The `blockAddr unsafe.Pointer` back-reference is modelled by the referenced
chunk's value. -/
inductive Tree (T : Type) where
  | nil : Tree T
  | node (sum validSize : Int) (blockAddr : Chunk T) (left right : Tree T) : Tree T
deriving DecidableEq

/-- `current.sum` on a tree pointer; only read on non-nil nodes. -/
def Tree.sumOf : Tree T → Int
  | .nil => 0
  | .node s _ _ _ _ => s

/-- `current == nil` test on a tree pointer. -/
def Tree.isNil : Tree T → Bool
  | .nil => true
  | _ => false

/-- `ChunkPipe[T]`: the chunk chain (head first), the two aggregate
counters and the index tree root.  The rwlock is not represented: every
method below is atomic. -/
structure ChunkPipe (T : Type) where
  chunks : List (Chunk T)
  totalSize : Int
  validSize : Int
  root : Tree T
deriving DecidableEq

/-- A freshly allocated, empty `ChunkPipe` (all fields zero). -/
def pipe0 {T : Type} : ChunkPipe T := ⟨[], 0, 0, .nil⟩

variable {T : Type}

/-- One store `*(ptr + i) = v` of the fast-path write loop: inside the
block the slot is overwritten; one slot past the end the block grows (the
source assumes this headroom exists in the real allocation). -/
def setOrAppend (l : List T) (i : Nat) (v : T) : List T :=
  if i < l.length then l.set i v else l ++ [v]

/-- The fast-path write loop of `Push`: `data[i]` is stored at `pos + i`. -/
def writeSeq (l : List T) (pos : Nat) : List T → List T
  | [] => l
  | v :: rest => writeSeq (setOrAppend l pos v) (pos + 1) rest

/-- `newData := make([]T, n); copy(newData, src)`: the first
`min n src.length` slots come from `src`, the rest stay zero. -/
def makeCopy [Inhabited T] (n : Nat) (src : List T) : List T :=
  src.take n ++ List.replicate (n - src.length) default

/-- The bulk-append path of `Push`: take ownership of the caller's block
and link it as the new tail chunk with `offset = 0`.  The source's two
branches (`tail != nil` links after the tail, otherwise the block becomes
`head`) both append the block at the end of the owned chain. -/
def bulkAppend (s : ChunkPipe T) (data : List T) : ChunkPipe T :=
  let block : Chunk T := ⟨data, (data.length : Int), 0⟩
  ⟨s.chunks ++ [block], s.totalSize + data.length, s.validSize + data.length, s.root⟩

/-- `Push`: empty input is a no-op; an input of length at most 8 whose
tail chunk exists with `size - offset < 16` is written in place at the
tail block starting at its `size`; otherwise the block is linked as a new
tail chunk. -/
def Push (s : ChunkPipe T) (data : List T) : ChunkPipe T :=
  if data.length = 0 then s
  else
    match s.chunks.getLast? with
    | some c =>
      if data.length ≤ 8 ∧ c.size - c.offset < 16 then
        let c' : Chunk T := ⟨writeSeq c.data c.size.toNat data, c.size + data.length, c.offset⟩
        ⟨s.chunks.dropLast ++ [c'], s.totalSize + data.length, s.validSize + data.length, s.root⟩
      else bulkAppend s data
    | none => bulkAppend s data

/-- The descent loop of `insertBlockToTree`.  In the source `current` is
always non-nil when the loop is entered, so the `.nil` case is never
reached; ancestor sums are bumped on the way down and the new node is
hung on the first free child slot, descending toward the child with the
smaller `sum`. -/
def insertLoop (bsum bvalid : Int) (nn : Tree T) : Tree T → Tree T
  | .nil => nn
  | .node sum valid blk l r =>
    if l.isNil then .node (sum + bsum) (valid + bvalid) blk nn r
    else if r.isNil then .node (sum + bsum) (valid + bvalid) blk l nn
    else if l.sumOf ≤ r.sumOf then
      .node (sum + bsum) (valid + bvalid) blk (insertLoop bsum bvalid nn l) r
    else
      .node (sum + bsum) (valid + bvalid) blk l (insertLoop bsum bvalid nn r)

/-- `insertBlockToTree`: a nil block is a no-op; otherwise a fresh node
carrying the block's `size` and valid count is inserted at the root or
through the descent loop.  (Defined in the source but called by none of
the methods.) -/
def insertBlockToTree (s : ChunkPipe T) (block : Option (Chunk T)) : ChunkPipe T :=
  match block with
  | none => s
  | some b =>
    let newNode : Tree T := .node b.size (b.size - b.offset) b .nil .nil
    match s.root with
    | .nil => { s with root := newNode }
    | r => { s with root := insertLoop b.size (b.size - b.offset) newNode r }

/-- The scan loop of `Get`: subtract each chunk's valid count from the
remaining index until the owning chunk is found, then read
`data[offset + remainingIndex]`. -/
def getLoop [Inhabited T] : List (Chunk T) → Int → T × Bool
  | [], _ => (default, false)
  | c :: rest, remainingIndex =>
    let validCount := c.size - c.offset
    if remainingIndex < validCount then
      (c.data.getD (c.offset + remainingIndex).toNat default, true)
    else getLoop rest (remainingIndex - validCount)

/-- `Get`: a negative index or one at least `validSize` is not found;
otherwise the chain is scanned from the head. -/
def Get [Inhabited T] (s : ChunkPipe T) (index : Int) : T × Bool :=
  if index < 0 ∨ s.validSize ≤ index then (default, false)
  else getLoop s.chunks index

/-- `PopFront`: returns `(value, found)` and the successor state.  A nil
head or zero `validSize` is not found; an already-empty head chunk is
unlinked with not found; otherwise the element at the head chunk's
`offset` is read, `offset` is bumped and the chunk is unlinked only once
`offset` reaches `size` (the fast path keeps chunks with more than 8
valid elements). -/
def PopFront [Inhabited T] (s : ChunkPipe T) : (T × Bool) × ChunkPipe T :=
  match s.chunks with
  | [] => ((default, false), s)
  | block :: rest =>
    if s.validSize = 0 then ((default, false), s)
    else if block.size ≤ block.offset then
      ((default, false), ⟨rest, s.totalSize, s.validSize, s.root⟩)
    else
      let value := block.data.getD block.offset.toNat default
      let block' : Chunk T := ⟨block.data, block.size, block.offset + 1⟩
      if block'.offset < block.size - 8 then
        ((value, true), ⟨block' :: rest, s.totalSize - 1, s.validSize - 1, s.root⟩)
      else if block.size ≤ block'.offset then
        ((value, true), ⟨rest, s.totalSize - 1, s.validSize - 1, s.root⟩)
      else
        ((value, true), ⟨block' :: rest, s.totalSize - 1, s.validSize - 1, s.root⟩)

/-- `PopEnd`: a nil tail or zero `validSize` is not found; otherwise the
element at the tail chunk's `size - 1` is read, `size` is decremented and
the tail chunk is unlinked once `size` falls to `offset`. -/
def PopEnd [Inhabited T] (s : ChunkPipe T) : (T × Bool) × ChunkPipe T :=
  match s.chunks.getLast? with
  | none => ((default, false), s)
  | some block =>
    if s.validSize = 0 then ((default, false), s)
    else
      let value := block.data.getD (block.size - 1).toNat default
      let block' : Chunk T := ⟨block.data, block.size - 1, block.offset⟩
      if block'.size ≤ block'.offset then
        ((value, true), ⟨s.chunks.dropLast, s.totalSize - 1, s.validSize - 1, s.root⟩)
      else
        ((value, true), ⟨s.chunks.dropLast ++ [block'], s.totalSize - 1, s.validSize - 1, s.root⟩)

/-- `PopChunkFront`: copies the head chunk's remaining valid run
(`src[offset:]` of the `size`-long view of the block) into a fresh slice,
unlinks the chunk and subtracts its valid count from both counters; an
empty head chunk is unlinked with not found. -/
def PopChunkFront [Inhabited T] (s : ChunkPipe T) : (List T × Bool) × ChunkPipe T :=
  match s.chunks with
  | [] => (([], false), s)
  | block :: rest =>
    if s.validSize = 0 then (([], false), s)
    else
      let validCount := block.size - block.offset
      if validCount ≤ 0 then (([], false), ⟨rest, s.totalSize, s.validSize, s.root⟩)
      else
        let newData := makeCopy validCount.toNat
          ((block.data.take block.size.toNat).drop block.offset.toNat)
        ((newData, true), ⟨rest, s.totalSize - validCount, s.validSize - validCount, s.root⟩)

/-- `PopChunkEnd`: the mirror of `PopChunkFront` on the tail chunk. -/
def PopChunkEnd [Inhabited T] (s : ChunkPipe T) : (List T × Bool) × ChunkPipe T :=
  match s.chunks.getLast? with
  | none => (([], false), s)
  | some block =>
    if s.validSize = 0 then (([], false), s)
    else
      let validCount := block.size - block.offset
      if validCount ≤ 0 then (([], false), ⟨s.chunks.dropLast, s.totalSize, s.validSize, s.root⟩)
      else
        let newData := makeCopy validCount.toNat
          ((block.data.take block.size.toNat).drop block.offset.toNat)
        ((newData, true),
          ⟨s.chunks.dropLast, s.totalSize - validCount, s.validSize - validCount, s.root⟩)

/-- The valid window `[offset, size)` of a chunk, exactly as `Range`
reads it: base pointer `data + offset`, length `size - offset`. -/
def window (c : Chunk T) : List T :=
  (c.data.drop c.offset.toNat).take (c.size - c.offset).toNat

/-- `Range`: an empty buffer yields nil, otherwise one snapshot slice is
built by appending every chunk's valid window (chunks with
`size <= offset` are skipped by the loop guard). -/
def Range (s : ChunkPipe T) : List T :=
  if s.validSize = 0 then []
  else (s.chunks.map fun c => if c.offset < c.size then window c else []).flatten

/-- Sequential short-circuit visit of a list: the trace of elements the
callback is invoked on, in order, and whether every invocation returned
`true`. -/
def visitList (p : T → Bool) : List T → List T × Bool
  | [] => ([], true)
  | x :: xs =>
    if p x then
      let r := visitList p xs
      (x :: r.1, r.2)
    else ([x], false)

/-- One chunk's traversal in `RangeValues`: 16-element unrolled batches
while `i + batchSize <= size` (the unrolled disjunction short-circuits,
so the callback stops at the first `false`), then the remainder one at a
time.  The prefetch read of `slice[i+batchSize]` invokes no callback. -/
def visitWindow (p : T → Bool) (l : List T) : List T × Bool :=
  if 16 ≤ l.length then
    let r := visitList p (l.take 16)
    if r.2 then
      let r2 := visitWindow p (l.drop 16)
      (r.1 ++ r2.1, r2.2)
    else (r.1, false)
  else visitList p l
termination_by l.length
decreasing_by simp; omega

/-- The chunk loop of `RangeValues`: each chunk with a non-empty valid
window is traversed; a `false` from the callback returns from the whole
method, visiting no later chunk. -/
def rvChunks (p : T → Bool) : List (Chunk T) → List T × Bool
  | [] => ([], true)
  | c :: rest =>
    if c.offset < c.size then
      let r := visitWindow p (window c)
      if r.2 then
        let r2 := rvChunks p rest
        (r.1 ++ r2.1, r2.2)
      else (r.1, false)
    else rvChunks p rest

/-- `RangeValues`, observed as the trace of elements the callback is
invoked on, in invocation order (the Go method returns nothing; its
observable behaviour is exactly this call trace). -/
def RangeValues (s : ChunkPipe T) (p : T → Bool) : List T :=
  (rvChunks p s.chunks).1

/-- One public mutating operation. -/
inductive Op (T : Type) where
  | push (data : List T)
  | popFront
  | popEnd
  | popChunkFront
  | popChunkEnd
deriving DecidableEq

/-- Apply one mutating operation, keeping only the successor state. -/
def applyOp [Inhabited T] (s : ChunkPipe T) : Op T → ChunkPipe T
  | .push data => Push s data
  | .popFront => (PopFront s).2
  | .popEnd => (PopEnd s).2
  | .popChunkFront => (PopChunkFront s).2
  | .popChunkEnd => (PopChunkEnd s).2

/-- The state reached from a fresh pipe by a sequence of operations. -/
def run [Inhabited T] (ops : List (Op T)) : ChunkPipe T :=
  ops.foldl applyOp pipe0

/-- The state reached from a fresh pipe by a sequence of `Push` calls. -/
def pushAll (datas : List (List T)) : ChunkPipe T :=
  datas.foldl Push pipe0

/-- Total number of elements handed to `Push` by a sequence of operations. -/
def pushedTotal : List (Op T) → Int
  | [] => 0
  | .push data :: rest => data.length + pushedTotal rest
  | _ :: rest => pushedTotal rest

/-- Number of elements a single operation successfully removes from state
`s` (a chunk pop counts the length of the returned slice). -/
def popCount [Inhabited T] (s : ChunkPipe T) : Op T → Int
  | .push _ => 0
  | .popFront => if (PopFront s).1.2 then 1 else 0
  | .popEnd => if (PopEnd s).1.2 then 1 else 0
  | .popChunkFront => if (PopChunkFront s).1.2 then ((PopChunkFront s).1.1.length : Int) else 0
  | .popChunkEnd => if (PopChunkEnd s).1.2 then ((PopChunkEnd s).1.1.length : Int) else 0

/-- Total number of elements successfully removed along a run. -/
def poppedTotal [Inhabited T] : ChunkPipe T → List (Op T) → Int
  | _, [] => 0
  | s, op :: rest => popCount s op + poppedTotal (applyOp s op) rest

/-- Repeatedly `PopFront`, collecting the returned values until a pop
fails or the fuel runs out. -/
def drainFront [Inhabited T] : Nat → ChunkPipe T → List T
  | 0, _ => []
  | n + 1, s =>
    let r := PopFront s
    if r.1.2 then r.1.1 :: drainFront n r.2 else []

/-- Repeatedly `PopEnd`, collecting the returned values until a pop fails
or the fuel runs out. -/
def drainEnd [Inhabited T] : Nat → ChunkPipe T → List T
  | 0, _ => []
  | n + 1, s =>
    let r := PopEnd s
    if r.1.2 then r.1.1 :: drainEnd n r.2 else []

/-- The logical sequence held by a chain: the concatenation of the valid
windows of its chunks, head to tail. -/
def seqOf (chunks : List (Chunk T)) : List T :=
  (chunks.map window).flatten

/-- The logical sequence held by a pipe. -/
def logicalSeq (s : ChunkPipe T) : List T :=
  seqOf s.chunks

/-- Sum of the valid counts `size - offset` over a chain. -/
def sumWindows (chunks : List (Chunk T)) : Int :=
  (chunks.map fun c => c.size - c.offset).sum

/-- Well-formedness of one linked chunk: a non-empty valid window that
lies inside the block. -/
def chunkWF (c : Chunk T) : Prop :=
  0 ≤ c.offset ∧ c.offset < c.size ∧ c.size ≤ (c.data.length : Int)

/-- Well-formedness of a pipe state: every linked chunk is well formed
and the two counters agree with the chain. -/
def WF (s : ChunkPipe T) : Prop :=
  (∀ c ∈ s.chunks, chunkWF c) ∧ s.validSize = sumWindows s.chunks ∧ s.totalSize = s.validSize

/-! Basic facts about the memory helpers. -/

theorem length_makeCopy [Inhabited T] (n : Nat) (src : List T) :
    (makeCopy n src).length = n := by
  simp only [makeCopy, List.length_append, List.length_take, List.length_replicate]
  omega

theorem makeCopy_of_length_eq [Inhabited T] {n : Nat} {src : List T}
    (h : src.length = n) : makeCopy n src = src := by
  subst h
  simp [makeCopy]

theorem length_setOrAppend (l : List T) (i : Nat) (v : T) (h : i ≤ l.length) :
    (setOrAppend l i v).length = max l.length (i + 1) := by
  unfold setOrAppend
  split <;> simp <;> omega

theorem getElem?_setOrAppend (l : List T) (i : Nat) (v : T) (h : i ≤ l.length) (j : Nat) :
    (setOrAppend l i v)[j]? = if j = i then some v else l[j]? := by
  unfold setOrAppend
  split
  · rename_i hi
    by_cases hj : j = i
    · subst hj
      simp [List.getElem?_set_self hi]
    · rw [List.getElem?_set_ne (by omega)]
      simp [hj]
  · rename_i hi
    have hil : i = l.length := by omega
    subst hil
    by_cases hj : j = l.length
    · subst hj
      rw [List.getElem?_append_right (Nat.le_refl _)]
      simp
    · by_cases hj2 : j < l.length
      · rw [List.getElem?_append_left hj2]
        simp [hj]
      · rw [List.getElem?_eq_none (by simp; omega), List.getElem?_eq_none (by omega)]
        simp [hj]

theorem length_writeSeq (vs : List T) (l : List T) (pos : Nat) (h : pos ≤ l.length) :
    (writeSeq l pos vs).length = max l.length (pos + vs.length) := by
  induction vs generalizing l pos with
  | nil =>
    simp only [writeSeq, List.length_nil]
    omega
  | cons v rest ih =>
    rw [writeSeq, ih _ _ (by rw [length_setOrAppend l pos v h]; omega),
      length_setOrAppend l pos v h]
    simp only [List.length_cons]
    omega

theorem getElem?_writeSeq (vs : List T) (l : List T) (pos : Nat) (h : pos ≤ l.length) (j : Nat) :
    (writeSeq l pos vs)[j]? =
      if pos ≤ j ∧ j < pos + vs.length then vs[j - pos]? else l[j]? := by
  induction vs generalizing l pos with
  | nil =>
    simp only [writeSeq, List.length_nil, Nat.add_zero]
    rw [if_neg (by omega)]
  | cons v rest ih =>
    rw [writeSeq, ih _ _ (by rw [length_setOrAppend l pos v h]; omega),
      getElem?_setOrAppend l pos v h j]
    simp only [List.length_cons]
    by_cases h1 : j = pos
    · subst h1
      rw [if_neg (by omega), if_pos rfl, if_pos (by omega)]
      simp
    · by_cases h2 : pos + 1 ≤ j ∧ j < pos + 1 + rest.length
      · rw [if_pos h2, if_pos (by omega)]
        have hjp : j - pos = (j - (pos + 1)) + 1 := by omega
        rw [hjp]
        simp
      · rw [if_neg h2, if_neg h1, if_neg (by omega)]

/-! Facts about a chunk's valid window. -/

theorem length_window (c : Chunk T) (h : chunkWF c) :
    (window c).length = (c.size - c.offset).toNat := by
  obtain ⟨h0, h1, h2⟩ := h
  simp only [window, List.length_take, List.length_drop]
  omega

theorem getElem?_window (c : Chunk T) (j : Nat) :
    (window c)[j]? =
      if j < (c.size - c.offset).toNat then c.data[c.offset.toNat + j]? else none := by
  rw [window, List.getElem?_take, List.getElem?_drop]

theorem window_nonempty (c : Chunk T) (h : chunkWF c) : window c ≠ [] := by
  intro hw
  have hlen := length_window c h
  rw [hw] at hlen
  obtain ⟨h0, h1, h2⟩ := h
  simp only [List.length_nil] at hlen
  omega

/-- Popping the front element: the window of a well-formed chunk is its
first block element followed by the window after `offset + 1`. -/
theorem window_cons (c : Chunk T) [Inhabited T] (h : chunkWF c) :
    window c = c.data.getD c.offset.toNat default ::
      window ⟨c.data, c.size, c.offset + 1⟩ := by
  obtain ⟨h0, h1, h2⟩ := h
  have hlt : c.offset.toNat < c.data.length := by omega
  have hn : (c.size - c.offset).toNat = ((c.size - (c.offset + 1)).toNat) + 1 := by omega
  have ho : (c.offset + 1).toNat = c.offset.toNat + 1 := by omega
  simp only [window]
  rw [List.getD_eq_getElem _ _ hlt, ho, List.drop_eq_getElem_cons hlt, hn, List.take_succ_cons]

/-- Popping the back element: the window of a well-formed chunk is the
window after `size - 1` followed by its last block element. -/
theorem window_concat (c : Chunk T) [Inhabited T] (h : chunkWF c) :
    window c = window ⟨c.data, c.size - 1, c.offset⟩ ++
      [c.data.getD (c.size - 1).toNat default] := by
  obtain ⟨h0, h1, h2⟩ := h
  have hn : (c.size - c.offset).toNat = ((c.size - 1 - c.offset).toNat) + 1 := by omega
  have hlt : (c.size - 1).toNat < c.data.length := by omega
  have hidx : c.offset.toNat + (c.size - 1 - c.offset).toNat = (c.size - 1).toNat := by omega
  simp only [window]
  rw [hn, List.take_succ]
  congr 1
  rw [List.getElem?_drop, hidx, List.getElem?_eq_getElem hlt, List.getD_eq_getElem _ _ hlt]
  rfl

/-- A chunk whose valid window is exhausted contributes nothing. -/
theorem window_eq_nil (c : Chunk T) (h : c.size ≤ c.offset) : window c = [] := by
  rw [window]
  have : (c.size - c.offset).toNat = 0 := by omega
  rw [this, List.take_zero]

/-! Facts about the logical sequence and window sums of a chain. -/

theorem seqOf_nil : seqOf ([] : List (Chunk T)) = [] := rfl

theorem seqOf_cons (c : Chunk T) (rest : List (Chunk T)) :
    seqOf (c :: rest) = window c ++ seqOf rest := by
  simp [seqOf]

theorem seqOf_append (l₁ l₂ : List (Chunk T)) :
    seqOf (l₁ ++ l₂) = seqOf l₁ ++ seqOf l₂ := by
  simp [seqOf]

theorem sumWindows_nil : sumWindows ([] : List (Chunk T)) = 0 := rfl

theorem sumWindows_cons (c : Chunk T) (rest : List (Chunk T)) :
    sumWindows (c :: rest) = (c.size - c.offset) + sumWindows rest := by
  simp [sumWindows]

theorem sumWindows_append (l₁ l₂ : List (Chunk T)) :
    sumWindows (l₁ ++ l₂) = sumWindows l₁ + sumWindows l₂ := by
  simp [sumWindows]

theorem length_seqOf (chunks : List (Chunk T)) (h : ∀ c ∈ chunks, chunkWF c) :
    ((seqOf chunks).length : Int) = sumWindows chunks := by
  induction chunks with
  | nil => simp [seqOf_nil, sumWindows_nil]
  | cons c rest ih =>
    rw [seqOf_cons, sumWindows_cons, List.length_append]
    have hc := h c (by simp)
    rw [length_window c hc]
    have := ih (fun d hd => h d (by simp [hd]))
    obtain ⟨h0, h1, h2⟩ := hc
    push_cast
    omega

theorem sumWindows_nonneg (chunks : List (Chunk T)) (h : ∀ c ∈ chunks, chunkWF c) :
    0 ≤ sumWindows chunks := by
  induction chunks with
  | nil => simp [sumWindows_nil]
  | cons c rest ih =>
    rw [sumWindows_cons]
    have hc := h c (by simp)
    obtain ⟨h0, h1, h2⟩ := hc
    have := ih (fun d hd => h d (by simp [hd]))
    omega

theorem sumWindows_pos (chunks : List (Chunk T)) (h : ∀ c ∈ chunks, chunkWF c)
    (hne : chunks ≠ []) : 0 < sumWindows chunks := by
  cases chunks with
  | nil => exact absurd rfl hne
  | cons c rest =>
    rw [sumWindows_cons]
    have hc := h c (by simp)
    obtain ⟨h0, h1, h2⟩ := hc
    have := sumWindows_nonneg rest (fun d hd => h d (by simp [hd]))
    omega

/-! Step lemmas for `Push`. -/

/-- The fast-path write extends the tail chunk's valid window by exactly
the pushed data. -/
theorem window_writeSeq (c : Chunk T) (data : List T) (h : chunkWF c) :
    window ⟨writeSeq c.data c.size.toNat data, c.size + (data.length : Int), c.offset⟩ =
      window c ++ data := by
  obtain ⟨h0, h1, h2⟩ := h
  have hwlen : (window c).length = (c.size - c.offset).toNat := length_window c ⟨h0, h1, h2⟩
  have hW := getElem?_writeSeq data c.data c.size.toNat (by omega)
  have hwc' : ∀ j : Nat,
      (window ⟨writeSeq c.data c.size.toNat data, c.size + (data.length : Int), c.offset⟩)[j]? =
        if j < (c.size + (data.length : Int) - c.offset).toNat then
          (writeSeq c.data c.size.toNat data)[c.offset.toNat + j]? else none :=
    fun j => getElem?_window _ j
  apply List.ext_getElem?
  intro j
  rw [hwc' j]
  by_cases hj1 : j < (c.size - c.offset).toNat
  · rw [if_pos (show j < (c.size + (data.length : Int) - c.offset).toNat by omega),
      hW, if_neg (by omega), List.getElem?_append_left (by omega),
      getElem?_window, if_pos hj1]
  · by_cases hj2 : j < (c.size + (data.length : Int) - c.offset).toNat
    · rw [if_pos hj2, hW, if_pos (by omega),
        List.getElem?_append_right (by omega), hwlen]
      congr 1
      omega
    · rw [if_neg hj2]
      symm
      apply List.getElem?_eq_none
      simp only [List.length_append, hwlen]
      omega

theorem push_root (s : ChunkPipe T) (data : List T) : (Push s data).root = s.root := by
  unfold Push bulkAppend
  split
  · rfl
  · split
    · split
      · rfl
      · rfl
    · rfl

theorem bulkAppend_step (s : ChunkPipe T) (data : List T) (h : WF s) (hd : data ≠ []) :
    WF (bulkAppend s data) ∧ seqOf (bulkAppend s data).chunks = seqOf s.chunks ++ data ∧
      (bulkAppend s data).validSize = s.validSize + data.length := by
  obtain ⟨hwf, hvs, hts⟩ := h
  have hwin : window ⟨data, (data.length : Int), 0⟩ = data := by
    rw [window]
    simp
  have hpos : 0 < data.length := List.length_pos.mpr hd
  have hblock : chunkWF ⟨data, (data.length : Int), 0⟩ := by
    refine ⟨le_refl 0, ?_, le_refl _⟩
    show (0 : Int) < (data.length : Int)
    exact_mod_cast hpos
  refine ⟨⟨?_, ?_, ?_⟩, ?_, rfl⟩
  · intro c hc
    simp only [bulkAppend, List.mem_append, List.mem_singleton] at hc
    rcases hc with hc | hc
    · exact hwf c hc
    · subst hc
      exact hblock
  · show s.validSize + (data.length : Int) = sumWindows (s.chunks ++ [_])
    rw [sumWindows_append, sumWindows_cons, sumWindows_nil, hvs]
    dsimp only
    omega
  · show s.totalSize + (data.length : Int) = s.validSize + (data.length : Int)
    rw [hts]
  · show seqOf (s.chunks ++ [_]) = _
    rw [seqOf_append, seqOf_cons, seqOf_nil, hwin, List.append_nil]

theorem push_step (s : ChunkPipe T) (data : List T) (h : WF s) :
    WF (Push s data) ∧ seqOf (Push s data).chunks = seqOf s.chunks ++ data ∧
      (Push s data).validSize = s.validSize + data.length := by
  unfold Push
  by_cases hd : data.length = 0
  · rw [if_pos hd]
    have hnil : data = [] := List.length_eq_zero.mp hd
    subst hnil
    refine ⟨h, by simp, by simp⟩
  · rw [if_neg hd]
    have hdne : data ≠ [] := fun hn => hd (by rw [hn]; rfl)
    rcases List.eq_nil_or_concat s.chunks with hnil | ⟨l', c, hsc⟩
    · rw [hnil, List.getLast?_nil]
      dsimp only
      have hb := bulkAppend_step s data h hdne
      rw [hnil] at hb
      exact hb
    · rw [List.concat_eq_append] at hsc
      rw [hsc, List.getLast?_concat]
      dsimp only
      by_cases hcond : data.length ≤ 8 ∧ c.size - c.offset < 16
      · rw [if_pos hcond]
        obtain ⟨hwf, hvs, hts⟩ := h
        have hc : chunkWF c := hwf c (by rw [hsc]; simp)
        have hl' : ∀ d ∈ l', chunkWF d := fun d hdm => hwf d (by rw [hsc]; simp [hdm])
        have hdl : (l' ++ [c]).dropLast = l' := by simp
        have hwin := window_writeSeq c data hc
        have hc' : chunkWF ⟨writeSeq c.data c.size.toNat data,
            c.size + (data.length : Int), c.offset⟩ := by
          obtain ⟨h0, h1, h2⟩ := hc
          refine ⟨h0, ?_, ?_⟩
          · show c.offset < c.size + (data.length : Int)
            omega
          · show c.size + (data.length : Int) ≤ ((writeSeq c.data c.size.toNat data).length : Int)
            rw [length_writeSeq data c.data c.size.toNat (by omega)]
            push_cast
            omega
        rw [hdl]
        refine ⟨⟨?_, ?_, ?_⟩, ?_, rfl⟩
        · intro d hdm
          simp only [List.mem_append, List.mem_singleton] at hdm
          rcases hdm with hdm | hdm
          · exact hl' d hdm
          · subst hdm
            exact hc'
        · show s.validSize + (data.length : Int) = sumWindows (l' ++ [_])
          rw [sumWindows_append, sumWindows_cons, sumWindows_nil, hvs, hsc,
            sumWindows_append, sumWindows_cons, sumWindows_nil]
          dsimp only
          omega
        · show s.totalSize + (data.length : Int) = s.validSize + (data.length : Int)
          rw [hts]
        · show seqOf (l' ++ [_]) = seqOf (l' ++ [c]) ++ data
          rw [seqOf_append, seqOf_cons, seqOf_nil, hwin, List.append_nil,
            seqOf_append, seqOf_cons, seqOf_nil, List.append_nil, List.append_assoc]
      · rw [if_neg hcond]
        have hb := bulkAppend_step s data h hdne
        rw [hsc] at hb
        exact hb

/-! Step lemmas for the single-element pops. -/

theorem popFront_step [Inhabited T] (s : ChunkPipe T) (c : Chunk T) (rest : List (Chunk T))
    (h : WF s) (hsc : s.chunks = c :: rest) :
    (PopFront s).1.2 = true ∧
    seqOf s.chunks = (PopFront s).1.1 :: seqOf (PopFront s).2.chunks ∧
    WF (PopFront s).2 ∧
    (PopFront s).2.validSize = s.validSize - 1 ∧
    (PopFront s).2.totalSize = s.totalSize - 1 ∧
    (PopFront s).2.root = s.root := by
  obtain ⟨hwf, hvs, hts⟩ := h
  have hc : chunkWF c := hwf c (by rw [hsc]; simp)
  have hrest : ∀ d ∈ rest, chunkWF d := fun d hd => hwf d (by rw [hsc]; simp [hd])
  obtain ⟨h0, h1, h2⟩ := hc
  have hv0 : ¬s.validSize = 0 := by
    have := sumWindows_pos s.chunks hwf (by rw [hsc]; simp)
    omega
  have hseq : seqOf s.chunks =
      c.data.getD c.offset.toNat default ::
        (window ⟨c.data, c.size, c.offset + 1⟩ ++ seqOf rest) := by
    rw [hsc, seqOf_cons, window_cons c ⟨h0, h1, h2⟩]
    rfl
  by_cases hrem : c.size ≤ c.offset + 1
  · have hpf : PopFront s = ((c.data.getD c.offset.toNat default, true),
        ⟨rest, s.totalSize - 1, s.validSize - 1, s.root⟩) := by
      unfold PopFront
      rw [hsc]
      dsimp only
      rw [if_neg hv0, if_neg (by omega), if_neg (by omega), if_pos (by omega)]
    rw [hpf]
    have hwnil : window ⟨c.data, c.size, c.offset + 1⟩ = [] :=
      window_eq_nil _ (by exact hrem)
    refine ⟨rfl, ?_, ⟨hrest, ?_, ?_⟩, rfl, rfl, rfl⟩
    · rw [hseq, hwnil]
      rfl
    · show s.validSize - 1 = sumWindows rest
      rw [hvs, hsc, sumWindows_cons]
      omega
    · show s.totalSize - 1 = s.validSize - 1
      omega
  · have hpf : PopFront s = ((c.data.getD c.offset.toNat default, true),
        ⟨⟨c.data, c.size, c.offset + 1⟩ :: rest, s.totalSize - 1, s.validSize - 1, s.root⟩) := by
      unfold PopFront
      rw [hsc]
      dsimp only
      rw [if_neg hv0, if_neg (by omega)]
      by_cases hfast : c.offset + 1 < c.size - 8
      · rw [if_pos hfast]
      · rw [if_neg hfast, if_neg (by omega)]
    rw [hpf]
    have hc' : chunkWF ⟨c.data, c.size, c.offset + 1⟩ := by
      refine ⟨?_, ?_, ?_⟩
      · show (0 : Int) ≤ c.offset + 1
        omega
      · show c.offset + 1 < c.size
        omega
      · exact h2
    refine ⟨rfl, ?_, ⟨?_, ?_, ?_⟩, rfl, rfl, rfl⟩
    · rw [hseq, seqOf_cons]
    · intro d hd
      rcases List.mem_cons.mp hd with hd | hd
      · subst hd
        exact hc'
      · exact hrest d hd
    · show s.validSize - 1 = sumWindows (⟨c.data, c.size, c.offset + 1⟩ :: rest)
      rw [hvs, hsc, sumWindows_cons, sumWindows_cons]
      dsimp only
      omega
    · show s.totalSize - 1 = s.validSize - 1
      omega

theorem popEnd_step [Inhabited T] (s : ChunkPipe T) (l' : List (Chunk T)) (c : Chunk T)
    (h : WF s) (hsc : s.chunks = l' ++ [c]) :
    (PopEnd s).1.2 = true ∧
    seqOf s.chunks = seqOf (PopEnd s).2.chunks ++ [(PopEnd s).1.1] ∧
    WF (PopEnd s).2 ∧
    (PopEnd s).2.validSize = s.validSize - 1 ∧
    (PopEnd s).2.totalSize = s.totalSize - 1 ∧
    (PopEnd s).2.root = s.root := by
  obtain ⟨hwf, hvs, hts⟩ := h
  have hc : chunkWF c := hwf c (by rw [hsc]; simp)
  have hl' : ∀ d ∈ l', chunkWF d := fun d hd => hwf d (by rw [hsc]; simp [hd])
  obtain ⟨h0, h1, h2⟩ := hc
  have hv0 : ¬s.validSize = 0 := by
    have := sumWindows_pos s.chunks hwf (by rw [hsc]; simp)
    omega
  have hseq : seqOf s.chunks =
      (seqOf l' ++ window ⟨c.data, c.size - 1, c.offset⟩) ++
        [c.data.getD (c.size - 1).toNat default] := by
    rw [hsc, seqOf_append, seqOf_cons, seqOf_nil, List.append_nil,
      window_concat c ⟨h0, h1, h2⟩, List.append_assoc]
  have hdl : (l' ++ [c]).dropLast = l' := by simp
  by_cases hrem : c.size - 1 ≤ c.offset
  · have hpe : PopEnd s = ((c.data.getD (c.size - 1).toNat default, true),
        ⟨l', s.totalSize - 1, s.validSize - 1, s.root⟩) := by
      unfold PopEnd
      rw [hsc, List.getLast?_concat]
      dsimp only
      rw [if_neg hv0, if_pos (by omega), hdl]
    rw [hpe]
    have hwnil : window ⟨c.data, c.size - 1, c.offset⟩ = [] :=
      window_eq_nil _ (by exact hrem)
    refine ⟨rfl, ?_, ⟨hl', ?_, ?_⟩, rfl, rfl, rfl⟩
    · rw [hseq, hwnil, List.append_nil]
    · show s.validSize - 1 = sumWindows l'
      rw [hvs, hsc, sumWindows_append, sumWindows_cons, sumWindows_nil]
      omega
    · show s.totalSize - 1 = s.validSize - 1
      omega
  · have hpe : PopEnd s = ((c.data.getD (c.size - 1).toNat default, true),
        ⟨l' ++ [⟨c.data, c.size - 1, c.offset⟩],
          s.totalSize - 1, s.validSize - 1, s.root⟩) := by
      unfold PopEnd
      rw [hsc, List.getLast?_concat]
      dsimp only
      rw [if_neg hv0, if_neg (by omega), hdl]
    rw [hpe]
    have hc' : chunkWF ⟨c.data, c.size - 1, c.offset⟩ := by
      refine ⟨h0, ?_, ?_⟩
      · show c.offset < c.size - 1
        omega
      · show c.size - 1 ≤ (c.data.length : Int)
        omega
    refine ⟨rfl, ?_, ⟨?_, ?_, ?_⟩, rfl, rfl, rfl⟩
    · rw [hseq, seqOf_append, seqOf_cons, seqOf_nil, List.append_nil]
    · intro d hd
      rcases List.mem_append.mp hd with hd | hd
      · exact hl' d hd
      · rw [List.mem_singleton] at hd
        subst hd
        exact hc'
    · show s.validSize - 1 = sumWindows (l' ++ [_])
      rw [hvs, hsc, sumWindows_append, sumWindows_append, sumWindows_cons,
        sumWindows_cons, sumWindows_nil]
      dsimp only
      omega
    · show s.totalSize - 1 = s.validSize - 1
      omega

/-! Step lemmas for the chunk-level pops, and behaviour on an empty chain. -/

/-- The slice copied out by the chunk pops is exactly the chunk's valid
window. -/
theorem makeCopy_window [Inhabited T] (c : Chunk T) (h : chunkWF c) :
    makeCopy (c.size - c.offset).toNat ((c.data.take c.size.toNat).drop c.offset.toNat) =
      window c := by
  obtain ⟨h0, h1, h2⟩ := h
  have hsrc : (c.data.take c.size.toNat).drop c.offset.toNat = window c := by
    rw [List.drop_take, window]
    congr 1
    omega
  rw [hsrc, makeCopy_of_length_eq (length_window c ⟨h0, h1, h2⟩)]

theorem popChunkFront_step [Inhabited T] (s : ChunkPipe T) (c : Chunk T)
    (rest : List (Chunk T)) (h : WF s) (hsc : s.chunks = c :: rest) :
    PopChunkFront s = ((window c, true),
      ⟨rest, s.totalSize - (c.size - c.offset), s.validSize - (c.size - c.offset), s.root⟩) ∧
    WF (PopChunkFront s).2 := by
  obtain ⟨hwf, hvs, hts⟩ := h
  have hc : chunkWF c := hwf c (by rw [hsc]; simp)
  have hrest : ∀ d ∈ rest, chunkWF d := fun d hd => hwf d (by rw [hsc]; simp [hd])
  obtain ⟨h0, h1, h2⟩ := hc
  have hv0 : ¬s.validSize = 0 := by
    have := sumWindows_pos s.chunks hwf (by rw [hsc]; simp)
    omega
  have hpc : PopChunkFront s = ((window c, true),
      ⟨rest, s.totalSize - (c.size - c.offset), s.validSize - (c.size - c.offset), s.root⟩) := by
    unfold PopChunkFront
    rw [hsc]
    dsimp only
    rw [if_neg hv0, if_neg (by omega), makeCopy_window c ⟨h0, h1, h2⟩]
  refine ⟨hpc, ?_⟩
  rw [hpc]
  refine ⟨hrest, ?_, ?_⟩
  · show s.validSize - (c.size - c.offset) = sumWindows rest
    rw [hvs, hsc, sumWindows_cons]
    omega
  · show s.totalSize - (c.size - c.offset) = s.validSize - (c.size - c.offset)
    omega

theorem popChunkEnd_step [Inhabited T] (s : ChunkPipe T) (l' : List (Chunk T))
    (c : Chunk T) (h : WF s) (hsc : s.chunks = l' ++ [c]) :
    PopChunkEnd s = ((window c, true),
      ⟨l', s.totalSize - (c.size - c.offset), s.validSize - (c.size - c.offset), s.root⟩) ∧
    WF (PopChunkEnd s).2 := by
  obtain ⟨hwf, hvs, hts⟩ := h
  have hc : chunkWF c := hwf c (by rw [hsc]; simp)
  have hl' : ∀ d ∈ l', chunkWF d := fun d hd => hwf d (by rw [hsc]; simp [hd])
  obtain ⟨h0, h1, h2⟩ := hc
  have hv0 : ¬s.validSize = 0 := by
    have := sumWindows_pos s.chunks hwf (by rw [hsc]; simp)
    omega
  have hdl : (l' ++ [c]).dropLast = l' := by simp
  have hpc : PopChunkEnd s = ((window c, true),
      ⟨l', s.totalSize - (c.size - c.offset), s.validSize - (c.size - c.offset), s.root⟩) := by
    unfold PopChunkEnd
    rw [hsc, List.getLast?_concat]
    dsimp only
    rw [if_neg hv0, if_neg (by omega), makeCopy_window c ⟨h0, h1, h2⟩, hdl]
  refine ⟨hpc, ?_⟩
  rw [hpc]
  refine ⟨hl', ?_, ?_⟩
  · show s.validSize - (c.size - c.offset) = sumWindows l'
    rw [hvs, hsc, sumWindows_append, sumWindows_cons, sumWindows_nil]
    omega
  · show s.totalSize - (c.size - c.offset) = s.validSize - (c.size - c.offset)
    omega

theorem popFront_nil [Inhabited T] (s : ChunkPipe T) (h : s.chunks = []) :
    PopFront s = ((default, false), s) := by
  unfold PopFront
  rw [h]

theorem popEnd_nil [Inhabited T] (s : ChunkPipe T) (h : s.chunks = []) :
    PopEnd s = ((default, false), s) := by
  unfold PopEnd
  rw [h, List.getLast?_nil]

theorem popChunkFront_nil [Inhabited T] (s : ChunkPipe T) (h : s.chunks = []) :
    PopChunkFront s = (([], false), s) := by
  unfold PopChunkFront
  rw [h]

theorem popChunkEnd_nil [Inhabited T] (s : ChunkPipe T) (h : s.chunks = []) :
    PopChunkEnd s = (([], false), s) := by
  unfold PopChunkEnd
  rw [h, List.getLast?_nil]

/-! Preservation of well-formedness along runs, and the element accounting
of each operation. -/

/-- Number of elements an operation hands to `Push`. -/
def pushLen : Op T → Int
  | .push data => (data.length : Int)
  | .popFront => 0
  | .popEnd => 0
  | .popChunkFront => 0
  | .popChunkEnd => 0

theorem applyOp_step [Inhabited T] (s : ChunkPipe T) (op : Op T) (h : WF s) :
    WF (applyOp s op) ∧
      (applyOp s op).validSize = s.validSize + pushLen op - popCount s op := by
  cases op with
  | push data =>
    have hp := push_step s data h
    exact ⟨hp.1, by rw [applyOp, hp.2.2, pushLen, popCount]; omega⟩
  | popFront =>
    rcases hsc : s.chunks with _ | ⟨c, rest⟩
    · have hn := popFront_nil s hsc
      rw [applyOp, popCount, pushLen, hn]
      exact ⟨h, by simp⟩
    · have hp := popFront_step s c rest h hsc
      refine ⟨hp.2.2.1, ?_⟩
      rw [applyOp, popCount, pushLen, hp.1, hp.2.2.2.1, if_pos rfl]
      omega
  | popEnd =>
    rcases List.eq_nil_or_concat s.chunks with hnil | ⟨l', c, hsc⟩
    · have hn := popEnd_nil s hnil
      rw [applyOp, popCount, pushLen, hn]
      exact ⟨h, by simp⟩
    · rw [List.concat_eq_append] at hsc
      have hp := popEnd_step s l' c h hsc
      refine ⟨hp.2.2.1, ?_⟩
      rw [applyOp, popCount, pushLen, hp.1, hp.2.2.2.1, if_pos rfl]
      omega
  | popChunkFront =>
    rcases hsc : s.chunks with _ | ⟨c, rest⟩
    · have hn := popChunkFront_nil s hsc
      rw [applyOp, popCount, pushLen, hn]
      exact ⟨h, by simp⟩
    · have hp := popChunkFront_step s c rest h hsc
      have hc : chunkWF c := h.1 c (by rw [hsc]; simp)
      obtain ⟨h0, h1, h2⟩ := hc
      refine ⟨hp.2, ?_⟩
      rw [applyOp, popCount, pushLen, hp.1]
      dsimp only
      rw [if_pos rfl, length_window c ⟨h0, h1, h2⟩]
      omega
  | popChunkEnd =>
    rcases List.eq_nil_or_concat s.chunks with hnil | ⟨l', c, hsc⟩
    · have hn := popChunkEnd_nil s hnil
      rw [applyOp, popCount, pushLen, hn]
      exact ⟨h, by simp⟩
    · rw [List.concat_eq_append] at hsc
      have hp := popChunkEnd_step s l' c h hsc
      have hc : chunkWF c := h.1 c (by rw [hsc]; simp)
      obtain ⟨h0, h1, h2⟩ := hc
      refine ⟨hp.2, ?_⟩
      rw [applyOp, popCount, pushLen, hp.1]
      dsimp only
      rw [if_pos rfl, length_window c ⟨h0, h1, h2⟩]
      omega

theorem pipe0_wf : WF (pipe0 : ChunkPipe T) := by
  refine ⟨?_, rfl, rfl⟩
  intro c hc
  simp [pipe0] at hc

theorem foldl_wf [Inhabited T] (ops : List (Op T)) (s : ChunkPipe T) (h : WF s) :
    WF (ops.foldl applyOp s) := by
  induction ops generalizing s with
  | nil => exact h
  | cons op rest ih => exact ih _ (applyOp_step s op h).1

theorem run_wf [Inhabited T] (ops : List (Op T)) : WF (run (T := T) ops) :=
  foldl_wf ops pipe0 pipe0_wf

/-! Draining, repeated pushes, indexed lookup and the snapshot. -/

theorem drainFront_eq [Inhabited T] (n : Nat) (s : ChunkPipe T) (h : WF s)
    (hn : (seqOf s.chunks).length = n) : drainFront n s = seqOf s.chunks := by
  induction n generalizing s with
  | zero =>
    rw [drainFront]
    exact (List.length_eq_zero.mp hn).symm
  | succ n ih =>
    rcases hsc : s.chunks with _ | ⟨c, rest⟩
    · rw [hsc, seqOf_nil] at hn
      simp at hn
    · have hp := popFront_step s c rest h hsc
      rw [drainFront]
      rw [hp.1, if_pos rfl, ← hsc, hp.2.1]
      congr 1
      apply ih _ hp.2.2.1
      have hl := congrArg List.length hp.2.1
      rw [hn] at hl
      simpa using hl.symm

theorem drainEnd_eq [Inhabited T] (n : Nat) (s : ChunkPipe T) (h : WF s)
    (hn : (seqOf s.chunks).length = n) : drainEnd n s = (seqOf s.chunks).reverse := by
  induction n generalizing s with
  | zero =>
    rw [drainEnd, List.length_eq_zero.mp hn]
    rfl
  | succ n ih =>
    rcases List.eq_nil_or_concat s.chunks with hnil | ⟨l', c, hsc⟩
    · rw [hnil, seqOf_nil] at hn
      simp at hn
    · rw [List.concat_eq_append] at hsc
      have hp := popEnd_step s l' c h hsc
      rw [drainEnd]
      rw [hp.1, if_pos rfl, hp.2.1, List.reverse_append]
      simp only [List.reverse_cons, List.reverse_nil, List.nil_append, List.singleton_append]
      congr 1
      apply ih _ hp.2.2.1
      have hl := congrArg List.length hp.2.1
      rw [hn] at hl
      simp only [List.length_append, List.length_cons, List.length_nil] at hl
      omega

theorem pushAll_spec (datas : List (List T)) :
    WF (pushAll datas) ∧ seqOf (pushAll datas).chunks = datas.flatten := by
  suffices h : ∀ (ds : List (List T)) (s : ChunkPipe T), WF s →
      WF (ds.foldl Push s) ∧
        seqOf (ds.foldl Push s).chunks = seqOf s.chunks ++ ds.flatten by
    have := h datas pipe0 pipe0_wf
    simpa [pushAll, pipe0, seqOf_nil] using this
  intro ds
  induction ds with
  | nil =>
    intro s hs
    rw [List.foldl_nil, List.flatten_nil, List.append_nil]
    exact ⟨hs, rfl⟩
  | cons d rest ih =>
    intro s hs
    have hp := push_step s d hs
    have hr := ih (Push s d) hp.1
    refine ⟨hr.1, ?_⟩
    rw [List.foldl_cons, hr.2, hp.2.1, List.flatten_cons, List.append_assoc]

theorem getLoop_spec [Inhabited T] (chunks : List (Chunk T)) (i : Int)
    (h : ∀ c ∈ chunks, chunkWF c) (hi : 0 ≤ i) (hlt : i < sumWindows chunks) :
    getLoop chunks i = ((seqOf chunks).getD i.toNat default, true) := by
  induction chunks generalizing i with
  | nil =>
    rw [sumWindows_nil] at hlt
    omega
  | cons c rest ih =>
    obtain ⟨h0, h1, h2⟩ := h c (by simp)
    have hwl : (window c).length = (c.size - c.offset).toNat :=
      length_window c ⟨h0, h1, h2⟩
    rw [getLoop]
    rw [seqOf_cons]
    by_cases hin : i < c.size - c.offset
    · rw [if_pos hin]
      have hidx : (c.offset + i).toNat = c.offset.toNat + i.toNat := by omega
      simp only [List.getD_eq_getElem?_getD]
      rw [List.getElem?_append_left (by omega), getElem?_window, if_pos (by omega), hidx]
    · rw [if_neg hin]
      rw [sumWindows_cons] at hlt
      rw [ih (i - (c.size - c.offset)) (fun d hd => h d (by simp [hd])) (by omega) (by omega)]
      simp only [List.getD_eq_getElem?_getD]
      rw [List.getElem?_append_right (by omega)]
      have hsub : i.toNat - (window c).length = (i - (c.size - c.offset)).toNat := by
        rw [hwl]
        omega
      rw [hsub]

theorem range_eq_seqOf (s : ChunkPipe T) (h : WF s) : Range s = seqOf s.chunks := by
  obtain ⟨hwf, hvs, hts⟩ := h
  unfold Range
  by_cases h0 : s.validSize = 0
  · rw [if_pos h0]
    rcases hchunks : s.chunks with _ | ⟨c, rest⟩
    · rw [seqOf_nil]
    · exfalso
      have := sumWindows_pos s.chunks hwf (by rw [hchunks]; simp)
      omega
  · rw [if_neg h0, seqOf]
    congr 1
    apply List.map_congr_left
    intro c hc
    rw [if_pos (hwf c hc).2.1]

/-! The callback traversal: the 16-element unrolled batches visit exactly
the same elements, in the same order, as a one-at-a-time traversal. -/

theorem visitList_append (p : T → Bool) (a b : List T) :
    visitList p (a ++ b) =
      if (visitList p a).2 then
        ((visitList p a).1 ++ (visitList p b).1, (visitList p b).2)
      else visitList p a := by
  induction a with
  | nil => simp [visitList]
  | cons x xs ih =>
    simp only [List.cons_append, visitList, List.append_eq]
    by_cases hx : p x
    · rw [if_pos hx, if_pos hx, ih]
      by_cases hb : (visitList p xs).2
      · simp [hb]
      · simp [hb]
    · rw [if_neg hx, if_neg hx]
      simp

theorem visitWindow_eq (p : T → Bool) (l : List T) :
    visitWindow p l = visitList p l := by
  rw [visitWindow]
  by_cases h16 : 16 ≤ l.length
  · rw [if_pos h16]
    have ih := visitWindow_eq p (l.drop 16)
    rw [ih]
    conv_rhs => rw [← List.take_append_drop 16 l, visitList_append]
    by_cases hb : (visitList p (l.take 16)).2
    · rw [if_pos hb, if_pos hb]
    · rw [if_neg hb, if_neg hb]
      have h2 : (visitList p (l.take 16)).2 = false := by
        revert hb
        cases (visitList p (l.take 16)).2 <;> simp
      rw [← h2]
  · rw [if_neg h16]
termination_by l.length
decreasing_by simp; omega

theorem rvChunks_eq (p : T → Bool) (chunks : List (Chunk T)) :
    rvChunks p chunks = visitList p (seqOf chunks) := by
  induction chunks with
  | nil =>
    rw [rvChunks, seqOf_nil, visitList]
  | cons c rest ih =>
    rw [rvChunks, seqOf_cons, visitList_append]
    by_cases hg : c.offset < c.size
    · rw [if_pos hg, visitWindow_eq, ih]
      by_cases hb : (visitList p (window c)).2
      · rw [if_pos hb, if_pos hb]
      · rw [if_neg hb, if_neg hb]
        have h2 : (visitList p (window c)).2 = false := by
          revert hb
          cases (visitList p (window c)).2 <;> simp
        rw [← h2]
    · have hw : window c = [] := window_eq_nil c (by omega)
      rw [if_neg hg, ih, hw]
      simp [visitList]

/-- A predicate that holds for the first `k - 1` elements and fails at the
`k`-th is invoked on exactly the first `k` elements. -/
theorem visitList_take [Inhabited T] (p : T → Bool) (L : List T) (k : Nat)
    (hk1 : 1 ≤ k) (hk2 : k ≤ L.length)
    (htrue : ∀ j : Nat, j + 1 < k → p (L.getD j default) = true)
    (hfalse : p (L.getD (k - 1) default) = false) :
    visitList p L = (L.take k, false) := by
  induction L generalizing k with
  | nil =>
    simp at hk2
    omega
  | cons x xs ih =>
    rw [visitList]
    rcases k with _ | k'
    · omega
    · by_cases hk0 : k' = 0
      · subst hk0
        simp only [Nat.add_sub_cancel, List.getD_cons_zero] at hfalse
        rw [if_neg (by rw [hfalse]; simp)]
        rfl
      · have hx : p x = true := by
          have := htrue 0 (by omega)
          simpa using this
        rw [if_pos hx]
        have hxs := ih k' (by omega) (by simpa using hk2)
          (fun j hj => by
            have := htrue (j + 1) (by omega)
            simpa using this)
          (by
            have hk1' : k' - 1 + 1 = k' := by omega
            have := hfalse
            simp only [Nat.add_sub_cancel] at this
            rw [← hk1', List.getD_cons_succ] at this
            exact this)
        rw [hxs, List.take_succ_cons]

/-! The claims. -/

/-- C1: in every reachable buffer state, for every integer index `i` with
`0 <= i < validSize`, `Get i` returns `(v, true)` where `v` is the `i`-th
element of the sequence returned by `Range` on the same state. -/
theorem get_agrees_with_range [Inhabited T] (ops : List (Op T)) (i : Int)
    (h0 : 0 ≤ i) (hi : i < (run ops).validSize) :
    Get (run ops) i = ((Range (run ops)).getD i.toNat default, true) := by
  have hwf := run_wf ops
  rw [range_eq_seqOf _ hwf]
  unfold Get
  rw [if_neg (by omega), getLoop_spec _ i hwf.1 h0 (by rw [← hwf.2.1]; exact hi)]

theorem get_agrees_with_range_witness :
    ((0 : Int) ≤ 3 ∧ (3 : Int) < (run [Op.push [1, 2, 3], Op.push [4, 5]] :
        ChunkPipe Int).validSize) ∧
      Get (run [Op.push [1, 2, 3], Op.push [4, 5]] : ChunkPipe Int) 3 =
        ((Range (run [Op.push [1, 2, 3], Op.push [4, 5]] : ChunkPipe Int)).getD
          (3 : Int).toNat default, true) :=
  ⟨⟨by decide, by decide⟩,
    get_agrees_with_range [Op.push [1, 2, 3], Op.push [4, 5]] 3 (by decide) (by decide)⟩

/-- C2 (counterexample): after pushing nine elements and popping one from
the front, `totalSize` is 8 while the sum of `size` over the chunks still
in the chain is 9 — `totalSize` does not count the already-consumed slot
of the still-linked chunk, contradicting the claim. -/
theorem totalSize_ne_sum_sizes :
    (run [Op.push ([0, 1, 2, 3, 4, 5, 6, 7, 8] : List Int), Op.popFront]).totalSize = 8 ∧
      ((run [Op.push ([0, 1, 2, 3, 4, 5, 6, 7, 8] : List Int), Op.popFront]).chunks.map
        (fun c => c.size)).sum = 9 := by
  decide

/-- C2 (amended): in every reachable buffer state, `totalSize` equals the
sum of the VALID counts `size - offset` over all chunks currently in the
chain (consumed slots are subtracted from `totalSize` as soon as they are
popped, not when the chunk is unlinked). -/
theorem totalSize_eq_sum_valid_counts [Inhabited T] (ops : List (Op T)) :
    (run ops).totalSize = sumWindows (run ops).chunks := by
  have hwf := run_wf ops
  rw [hwf.2.2, hwf.2.1]

/-- C3: after any sequence of operations, `validSize` equals the total
number of elements pushed minus the total number of elements removed by
successful pops (each chunk pop counted by the length of the returned
slice). -/
theorem validSize_accounting [Inhabited T] (ops : List (Op T)) :
    (run ops).validSize = pushedTotal ops - poppedTotal pipe0 ops := by
  suffices h : ∀ (os : List (Op T)) (s : ChunkPipe T), WF s →
      (os.foldl applyOp s).validSize = s.validSize + pushedTotal os - poppedTotal s os by
    have hr := h ops pipe0 pipe0_wf
    rw [run, hr]
    show (0 : Int) + _ - _ = _
    omega
  intro os
  induction os with
  | nil =>
    intro s hs
    simp [pushedTotal, poppedTotal]
  | cons op rest ih =>
    intro s hs
    have hstep := applyOp_step s op hs
    have hpt : pushedTotal (op :: rest) = pushLen op + pushedTotal rest := by
      cases op <;> simp [pushedTotal, pushLen]
    have hpp : poppedTotal s (op :: rest) =
        popCount s op + poppedTotal (applyOp s op) rest := rfl
    rw [List.foldl_cons, ih (applyOp s op) hstep.1, hpt, hpp, hstep.2]
    omega

/-- C4: after any sequence of `Push` calls, repeatedly calling `PopFront`
returns the concatenation of the pushed sequences in append order (FIFO),
and repeatedly calling `PopEnd` returns exactly the reverse (LIFO from the
tail). -/
theorem popFront_fifo_popEnd_lifo [Inhabited T] (datas : List (List T)) :
    drainFront datas.flatten.length (pushAll datas) = datas.flatten ∧
      drainEnd datas.flatten.length (pushAll datas) = datas.flatten.reverse := by
  have hp := pushAll_spec datas
  constructor
  · rw [drainFront_eq _ _ hp.1 (by rw [hp.2]), hp.2]
  · rw [drainEnd_eq _ _ hp.1 (by rw [hp.2]), hp.2]

/-- C5: on an empty buffer (no chunks, `validSize = 0`), `PopFront` and
`PopEnd` return `(zero, false)`, `PopChunkFront` and `PopChunkEnd` return
`(nil, false)`, `Get i` returns `(zero, false)` for every index `i`, and
none of them modifies the state. -/
theorem empty_buffer_ops_not_found [Inhabited T] (s : ChunkPipe T)
    (h1 : s.chunks = []) (h2 : s.validSize = 0) :
    PopFront s = ((default, false), s) ∧ PopEnd s = ((default, false), s) ∧
      PopChunkFront s = (([], false), s) ∧ PopChunkEnd s = (([], false), s) ∧
      ∀ i : Int, Get s i = (default, false) := by
  refine ⟨popFront_nil s h1, popEnd_nil s h1, popChunkFront_nil s h1,
    popChunkEnd_nil s h1, ?_⟩
  intro i
  unfold Get
  rw [if_pos (by omega)]

theorem empty_buffer_ops_not_found_witness :
    ((pipe0 : ChunkPipe Int).chunks = [] ∧ (pipe0 : ChunkPipe Int).validSize = 0) ∧
      (PopFront (pipe0 : ChunkPipe Int) = ((default, false), pipe0) ∧
        PopEnd (pipe0 : ChunkPipe Int) = ((default, false), pipe0) ∧
        PopChunkFront (pipe0 : ChunkPipe Int) = (([], false), pipe0) ∧
        PopChunkEnd (pipe0 : ChunkPipe Int) = (([], false), pipe0) ∧
        ∀ i : Int, Get (pipe0 : ChunkPipe Int) i = (default, false)) :=
  ⟨⟨rfl, rfl⟩, empty_buffer_ops_not_found pipe0 rfl rfl⟩

/-- C6: for every buffer state and predicate `p`, if `p` is true on the
first `k - 1` elements of the logical sequence and false on the `k`-th,
then `RangeValues` invokes `p` on exactly the first `k` elements, in
logical order, and visits nothing after the `k`-th — regardless of chunk
boundaries or the 16-element unrolled batches. -/
theorem rangeValues_short_circuit [Inhabited T] (s : ChunkPipe T) (p : T → Bool) (k : Nat)
    (hk1 : 1 ≤ k) (hk2 : k ≤ (logicalSeq s).length)
    (htrue : ∀ j : Nat, j + 1 < k → p ((logicalSeq s).getD j default) = true)
    (hfalse : p ((logicalSeq s).getD (k - 1) default) = false) :
    RangeValues s p = (logicalSeq s).take k := by
  unfold RangeValues
  rw [rvChunks_eq, show seqOf s.chunks = logicalSeq s from rfl,
    visitList_take p (logicalSeq s) k hk1 hk2 htrue hfalse]

theorem rangeValues_short_circuit_witness :
    (1 ≤ 2 ∧ 2 ≤ (logicalSeq (run [Op.push [1, 2, 3]] : ChunkPipe Int)).length) ∧
      RangeValues (run [Op.push [1, 2, 3]] : ChunkPipe Int) (fun x => decide (x < 2)) =
        (logicalSeq (run [Op.push [1, 2, 3]] : ChunkPipe Int)).take 2 :=
  ⟨⟨by decide, by decide⟩,
    rangeValues_short_circuit (run [Op.push [1, 2, 3]] : ChunkPipe Int)
      (fun x => decide (x < 2)) 2 (by decide) (by decide)
      (fun j hj => by
        have hj0 : j = 0 := by omega
        subst hj0
        decide)
      (by decide)⟩

/-- C7: a `Push` of `1 <= len <= 8` elements onto a buffer whose tail
chunk exists with `size - offset < 16` writes the input into the tail
chunk's block at positions `size .. size + len - 1`, grows the tail's
`size` by `len`, extends the tail's valid window by exactly the input,
and links no new chunk (the rest of the chain is untouched). -/
theorem push_fast_path_in_place (s : ChunkPipe T) (l : List (Chunk T)) (c : Chunk T)
    (data : List T) (hchain : s.chunks = l ++ [c]) (hlen1 : 1 ≤ data.length)
    (hlen8 : data.length ≤ 8) (hfree : c.size - c.offset < 16) (hwf : chunkWF c) :
    Push s data = ⟨l ++ [⟨writeSeq c.data c.size.toNat data,
        c.size + (data.length : Int), c.offset⟩],
      s.totalSize + data.length, s.validSize + data.length, s.root⟩ ∧
    (∀ i : Nat, i < data.length →
      (writeSeq c.data c.size.toNat data)[c.size.toNat + i]? = data[i]?) ∧
    (∀ i : Nat, i < c.size.toNat →
      (writeSeq c.data c.size.toNat data)[i]? = c.data[i]?) ∧
    window ⟨writeSeq c.data c.size.toNat data, c.size + (data.length : Int), c.offset⟩ =
      window c ++ data := by
  obtain ⟨h0, h1, h2⟩ := hwf
  refine ⟨?_, ?_, ?_, window_writeSeq c data ⟨h0, h1, h2⟩⟩
  · unfold Push
    rw [if_neg (by omega), hchain, List.getLast?_concat]
    dsimp only
    rw [if_pos ⟨hlen8, hfree⟩]
    have hdl : (l ++ [c]).dropLast = l := by simp
    rw [hdl]
  · intro i hi
    rw [getElem?_writeSeq data c.data c.size.toNat (by omega), if_pos (by omega)]
    congr 1
    omega
  · intro i hi
    rw [getElem?_writeSeq data c.data c.size.toNat (by omega), if_neg (by omega)]

theorem push_fast_path_in_place_witness :
    (1 ≤ ([9, 9] : List Int).length ∧
        (⟨[1, 2, 3], 3, 0⟩ : Chunk Int).size - (⟨[1, 2, 3], 3, 0⟩ : Chunk Int).offset < 16) ∧
      (Push (⟨[⟨[1, 2, 3], 3, 0⟩], 3, 3, Tree.nil⟩ : ChunkPipe Int) [9, 9] =
          ⟨[⟨[1, 2, 3, 9, 9], 5, 0⟩], 5, 5, Tree.nil⟩ ∧
        (∀ i : Nat, i < ([9, 9] : List Int).length →
          (writeSeq ([1, 2, 3] : List Int) (3 : Int).toNat [9, 9])[(3 : Int).toNat + i]? =
            ([9, 9] : List Int)[i]?) ∧
        (∀ i : Nat, i < ((3 : Int)).toNat →
          (writeSeq ([1, 2, 3] : List Int) (3 : Int).toNat [9, 9])[i]? =
            ([1, 2, 3] : List Int)[i]?) ∧
        window (⟨[1, 2, 3, 9, 9], 5, 0⟩ : Chunk Int) =
          window (⟨[1, 2, 3], 3, 0⟩ : Chunk Int) ++ [9, 9]) :=
  ⟨⟨by decide, by decide⟩,
    push_fast_path_in_place (⟨[⟨[1, 2, 3], 3, 0⟩], 3, 3, Tree.nil⟩ : ChunkPipe Int)
      [] ⟨[1, 2, 3], 3, 0⟩ [9, 9] rfl (by decide) (by decide) (by decide)
      ⟨by decide, by decide, by decide⟩⟩

/-- C8 (counterexample): a bulk `Push` on a fresh pipe links one chunk
into the chain, yet the weighted tree root stays nil — `Push` never calls
`insertBlockToTree`, so no index node is inserted. -/
theorem push_links_chunk_without_tree_node :
    (run [Op.push ([0, 1, 2, 3, 4, 5, 6, 7, 8] : List Int)]).chunks.length = 1 ∧
      (run [Op.push ([0, 1, 2, 3, 4, 5, 6, 7, 8] : List Int)]).root = Tree.nil := by
  decide

/-- C8 (amended): no `Push` call ever inserts a node into the weighted
index tree: `Push` leaves `root` unchanged, so after any sequence of bulk
appends from a fresh pipe the tree is still empty (`insertBlockToTree` is
defined in the source but never invoked). -/
theorem push_never_touches_tree :
    (∀ (s : ChunkPipe T) (data : List T), (Push s data).root = s.root) ∧
      ∀ datas : List (List T), (pushAll (T := T) datas).root = Tree.nil := by
  refine ⟨push_root, ?_⟩
  intro datas
  suffices h : ∀ (ds : List (List T)) (s : ChunkPipe T), (ds.foldl Push s).root = s.root by
    rw [pushAll, h]
    rfl
  intro ds
  induction ds with
  | nil =>
    intro s
    rfl
  | cons d rest ih =>
    intro s
    rw [List.foldl_cons, ih, push_root]

/-- C9 (implicit): in every reachable buffer state `totalSize = validSize`
— all five mutating operations apply identical deltas to both counters and
both start at zero. -/
theorem totalSize_eq_validSize [Inhabited T] (ops : List (Op T)) :
    (run ops).totalSize = (run ops).validSize :=
  (run_wf ops).2.2

/-- C10 (implicit): in every reachable buffer state, every chunk in the
chain has a non-empty valid window lying inside its block:
`0 <= offset < size <= length of the block`.  In particular the
empty-chunk branches of the pops are unreachable and `PopEnd`'s read at
`size - 1` is inside the tail's valid window. -/
theorem chain_chunks_well_formed [Inhabited T] (ops : List (Op T)) :
    ∀ c ∈ (run ops).chunks,
      0 ≤ c.offset ∧ c.offset < c.size ∧ c.size ≤ (c.data.length : Int) :=
  fun c hc => (run_wf ops).1 c hc

theorem chain_chunks_well_formed_witness :
    (0 : Int) ≤ 0 ∧ (0 : Int) < 1 ∧ (1 : Int) ≤ ((([7] : List Int).length : Nat) : Int) :=
  chain_chunks_well_formed [Op.push [7]] ⟨[7], 1, 0⟩ (by decide)

end ChunkPipeModel
